import Mathlib

/-!
Shallow embedding of the k-means clustering engine in `src/k_means.c`
(repository `c_means`).

Modelling conventions:
* C `double` values are modelled by exact rationals `ℚ`; the C library
  function `sqrt` is an explicit parameter `sqrt : ℚ → ℚ` of every
  definition that calls it (the square-root defining property is never
  needed by the algorithm, only the values it returns are compared and
  summed).  `DBL_EPSILON` is a parameter `eps : ℚ`.
* `INFINITY` (used to initialize `closest_distance` and `movement`)
  is modelled by `Option ℚ` with `none` standing for `+inf`.
* The fatal `failwith` aborts become the `Except.error` branch.
* `rand()` is modelled by a list of draws `draws : List ℕ` together
  with the constant `rmax : ℕ` standing for `RAND_MAX`; each C call to
  `rand()` consumes the head of the list, and an exhausted list models
  a run of the retry loop that never finds a fresh row.
* The mutable buffers `kernels`, `kernel_followers`,
  `kernel_follower_count`, `kernel_follower_sum`, `prev_means` and the
  caller's `data_rows` become fields of the state record `KState`,
  threaded through every phase of the loop; a C statement writing
  through one of those pointers becomes an update of the corresponding
  field, so the caller's dataset is modelled as mutable state like the
  rest (frame properties about it are therefore real statements, not
  artifacts).
* `malloc`ed buffers that the C code leaves uninitialized before fully
  overwriting them are initialized with zeros in the model.
-/

/-- The working state of one `k_means` run: the caller's dataset plus the
five buffers the C code allocates (file-scope pointers in the source,
`src/k_means.c:178-187`). -/
structure KState where
  data_rows : List (List ℚ)
  kernels : List (List ℚ)
  kernel_followers : List ℕ
  kernel_follower_count : List ℕ
  kernel_follower_sum : List (List ℚ)
  prev_means : List (List ℚ)
deriving Repr, DecidableEq

/-- The sum-of-squares loop of `distf64v` (`src/k_means.c:49-53`):
`for i < m: sum += (p[i] - q[i]) * (p[i] - q[i])`. -/
def sumSq (p q : List ℚ) : ℚ :=
  (p.zip q).foldl (fun acc pr => acc + (pr.1 - pr.2) * (pr.1 - pr.2)) 0

/-- `distf64v` (`src/k_means.c:48-68`): Euclidean distance with the two
fatal branches (`sum < 0` and `out != out`, i.e. the NaN check) modelled
as `Except.error`. -/
def distf64v (sqrt : ℚ → ℚ) (p q : List ℚ) : Except String ℚ :=
  let sum := sumSq p q
  if sum < 0 then .error "Our sum returned a negative number"
  else
    let out := sqrt sum
    if out ≠ out then .error "distance was not a number"
    else .ok out

/-- `distance < closest_distance` where `closest_distance` starts out as
`INFINITY` (`none`), `src/k_means.c:221,226`. -/
def ltClosest (d : ℚ) : Option ℚ → Bool
  | none => true
  | some c => decide (d < c)

/-- The inner kernel loop of the Assignment step
(`src/k_means.c:224-230`): scan kernels in index order, keep the first
strictly smaller distance.  Arguments: remaining kernels, index `ki` of
the first of them, current `closest_distance`, current
`closest_kernel`. -/
def nearestGo (sqrt : ℚ → ℚ) (row : List ℚ) :
    List (List ℚ) → ℕ → Option ℚ → ℕ → Except String ℕ
  | [], _, _, ck => .ok ck
  | kern :: rest, ki, closest, ck =>
    match distf64v sqrt row kern with
    | .error e => .error e
    | .ok d =>
      if ltClosest d closest then nearestGo sqrt row rest (ki + 1) (some d) ki
      else nearestGo sqrt row rest (ki + 1) closest ck

/-- The full nearest-kernel search for one row, starting from
`closest_distance = INFINITY`, `closest_kernel = 0`
(`src/k_means.c:221-230`). -/
def nearestKernel (sqrt : ℚ → ℚ) (row : List ℚ) (kernels : List (List ℚ)) :
    Except String ℕ :=
  nearestGo sqrt row kernels 0 none 0

/-- Pure mirror of `nearestGo` (the search never takes an error branch
over exact arithmetic; proved below). -/
def nearestGoP (sqrt : ℚ → ℚ) (row : List ℚ) :
    List (List ℚ) → ℕ → Option ℚ → ℕ → ℕ
  | [], _, _, ck => ck
  | kern :: rest, ki, closest, ck =>
    let d := sqrt (sumSq row kern)
    if ltClosest d closest then nearestGoP sqrt row rest (ki + 1) (some d) ki
    else nearestGoP sqrt row rest (ki + 1) closest ck

/-- Pure mirror of `nearestKernel`. -/
def nearestIdx (sqrt : ℚ → ℚ) (row : List ℚ) (kernels : List (List ℚ)) : ℕ :=
  nearestGoP sqrt row kernels 0 none 0

/-- In-place update of one cell of a C array: `a[i] = f a[i]`. -/
def modifyAt {α : Type} : List α → ℕ → (α → α) → List α
  | [], _, _ => []
  | x :: xs, 0, f => f x :: xs
  | x :: xs, n + 1, f => x :: modifyAt xs n f

/-- `kernel_follower_sum[ck][vi] += row[vi]` for all `vi < m`
(`src/k_means.c:233-235`). -/
def addVec (s row : List ℚ) : List ℚ :=
  s.zipWith (fun a b => a + b) row

/-- The body of the Assignment loop for one row `pr = (ri, row)`
(`src/k_means.c:219-236`): find the nearest kernel, record it in
`kernel_followers[ri]`, bump its follower count, add the row into its
running sum. -/
def processRow (sqrt : ℚ → ℚ) (s : KState) (pr : ℕ × List ℚ) :
    Except String KState :=
  match nearestKernel sqrt pr.2 s.kernels with
  | .error e => .error e
  | .ok ck => .ok { s with
      kernel_followers := s.kernel_followers.set pr.1 ck,
      kernel_follower_count := modifyAt s.kernel_follower_count ck (fun c => c + 1),
      kernel_follower_sum := modifyAt s.kernel_follower_sum ck (fun sv => addVec sv pr.2) }

/-- Pure mirror of `processRow`. -/
def processRowP (sqrt : ℚ → ℚ) (s : KState) (pr : ℕ × List ℚ) : KState :=
  { s with
    kernel_followers := s.kernel_followers.set pr.1 (nearestIdx sqrt pr.2 s.kernels),
    kernel_follower_count :=
      modifyAt s.kernel_follower_count (nearestIdx sqrt pr.2 s.kernels) (fun c => c + 1),
    kernel_follower_sum :=
      modifyAt s.kernel_follower_sum (nearestIdx sqrt pr.2 s.kernels)
        (fun sv => addVec sv pr.2) }

/-- The Assignment step over all rows `ri = 0 .. n-1`
(`src/k_means.c:218-236`). -/
def assignStep (sqrt : ℚ → ℚ) (s : KState) : Except String KState :=
  s.data_rows.enum.foldlM (processRow sqrt) s

/-- Pure mirror of `assignStep`. -/
def assignStepP (sqrt : ℚ → ℚ) (s : KState) : KState :=
  s.data_rows.enum.foldl (processRowP sqrt) s

/-- Per-dimension Update of one kernel (`src/k_means.c:239-247`): a
kernel with no followers keeps its previous coordinates (the `continue`
branch); otherwise each coordinate becomes sum / count. -/
def updateKernel (c : ℕ) (s kern : List ℚ) : List ℚ :=
  (kern.zip s).map (fun p => if c = 0 then p.1 else p.2 / (c : ℚ))

/-- The Update step over all kernels (`src/k_means.c:238-247`). -/
def updateStep : List (List ℚ) → List ℕ → List (List ℚ) → List (List ℚ)
  | kern :: ks, c :: cs, sv :: ss => updateKernel c sv kern :: updateStep ks cs ss
  | ks, _, _ => ks

/-- The movement accumulation loop (`src/k_means.c:248-260`), with the
per-step `movement != movement` NaN guard as an error branch. -/
def movementCalc (sqrt : ℚ → ℚ) (prev kern : List (List ℚ)) : Except String ℚ :=
  (prev.zip kern).foldlM (fun mv pq =>
    match distf64v sqrt pq.1 pq.2 with
    | .error e => .error e
    | .ok d =>
      let mv2 := mv + d
      if mv2 ≠ mv2 then .error "Movement was nan" else .ok mv2) 0

/-- Pure mirror of `movementCalc`: the total displacement of the
kernels in one iteration. -/
def movementSum (sqrt : ℚ → ℚ) (prev kern : List (List ℚ)) : ℚ :=
  (prev.zip kern).foldl (fun mv pq => mv + sqrt (sumSq pq.1 pq.2)) 0

/-- One body of the main `while` loop (`src/k_means.c:206-261`):
snapshot the kernels into `prev_means`, reset the accumulators, run
Assignment, run Update, compute the movement.  The element-wise C copy
loops become whole-list copies (the buffers hold exactly `k` rows of
`m` values). -/
def kMeansIter (sqrt : ℚ → ℚ) (k m : ℕ) (s : KState) :
    Except String (KState × ℚ) :=
  let s1 := { s with prev_means := s.kernels }
  let s2 := { s1 with
    kernel_follower_count := List.replicate k 0,
    kernel_follower_sum := List.replicate k (List.replicate m 0) }
  match assignStep sqrt s2 with
  | .error e => .error e
  | .ok s3 =>
    let s4 := { s3 with
      kernels := updateStep s3.kernels s3.kernel_follower_count s3.kernel_follower_sum }
    match movementCalc sqrt s4.prev_means s4.kernels with
    | .error e => .error e
    | .ok mv => .ok (s4, mv)

/-- Pure mirror of `kMeansIter`. -/
def kMeansIterP (sqrt : ℚ → ℚ) (k m : ℕ) (s : KState) : KState × ℚ :=
  let s2 := { s with
    prev_means := s.kernels,
    kernel_follower_count := List.replicate k 0,
    kernel_follower_sum := List.replicate k (List.replicate m 0) }
  let s3 := assignStepP sqrt s2
  let s4 := { s3 with
    kernels := updateStep s3.kernels s3.kernel_follower_count s3.kernel_follower_sum }
  (s4, movementSum sqrt s4.prev_means s4.kernels)

/-- `movement >= DBL_EPSILON` where `movement` starts out as `INFINITY`
(`none`), `src/k_means.c:192,206`. -/
def movementGE : Option ℚ → ℚ → Bool
  | none, _ => true
  | some mv, eps => decide (eps ≤ mv)

/-- The main loop `while (movement >= DBL_EPSILON && iterations < 2500)`
(`src/k_means.c:205-261`).  The bound `iterations < 2500` is carried as
structural fuel: the loop is entered with `fuel = 2500 - iterations`,
each pass increments `iterations` and decrements `fuel`, so
`fuel = 0` is exactly `iterations = 2500`. -/
def kMeansGo (sqrt : ℚ → ℚ) (eps : ℚ) (k m : ℕ) :
    ℕ → KState → Option ℚ → ℕ → Except String (KState × ℕ)
  | 0, s, _, iterations => .ok (s, iterations)
  | fuel + 1, s, movement, iterations =>
    if movementGE movement eps then
      match kMeansIter sqrt k m s with
      | .error e => .error e
      | .ok (s', mv') => kMeansGo sqrt eps k m fuel s' (some mv') (iterations + 1)
    else .ok (s, iterations)

/-- `row = (size_t)((rand() / (double)RAND_MAX) * n)`
(`src/k_means.c:96-97`): the row index produced by one draw `r` of
`rand()`. -/
def rowOfDraw (rmax n r : ℕ) : ℕ :=
  Nat.floor (((r : ℚ) / (rmax : ℚ)) * (n : ℚ))

/-- The retry loop of `pick_random_kernels` (`src/k_means.c:95-109`):
keep drawing until the drawn row was not already selected; `none` models
a draw sequence on which the C loop never exits. -/
def drawFresh (rmax n : ℕ) (chosen : List ℕ) : List ℕ → Option (ℕ × List ℕ)
  | [] => none
  | d :: rest =>
    let row := rowOfDraw rmax n d
    if row ∈ chosen then drawFresh rmax n chosen rest else some (row, rest)

/-- The outer selection loop of `pick_random_kernels`
(`src/k_means.c:93-117`): select `k` pairwise distinct rows, in draw
order. -/
def pickRowsGo (rmax n : ℕ) : ℕ → List ℕ → List ℕ → Option (List ℕ)
  | 0, _, chosen => some chosen
  | k + 1, draws, chosen =>
    match drawFresh rmax n chosen draws with
    | none => none
    | some (row, rest) => pickRowsGo rmax n k rest (chosen ++ [row])

/-- `pick_random_kernels` (`src/k_means.c:80-120`): select `k` distinct
random rows and copy each selected row's `m` values into a fresh
kernel.  The C read `data_rows[row][j]` is totalized with `getD`
defaults (the source can read out of bounds when `row = n`; see the
theorem about `rowOfDraw` below). -/
def pick_random_kernels (rmax : ℕ) (draws : List ℕ) (data_rows : List (List ℚ))
    (n m k : ℕ) : Option (List (List ℚ)) :=
  (pickRowsGo rmax n k draws []).map (fun rowIdxs =>
    rowIdxs.map (fun row => (List.range m).map (fun j => (data_rows.getD row []).getD j 0)))

/-- Projection of a row onto dimension `d` (the `a[dim]` reads of the
`cmpf64v` comparator, `src/k_means.c:27-34`). -/
def dimVal (d : ℕ) (r : List ℚ) : ℚ := r.getD d 0

/-- `qsort_r(data_rows_copy, n, ..., cmpf64v, &i)`
(`src/k_means.c:162`): sort the rows by their dimension-`d` values.
`qsort` promises some sorted permutation; the model fixes `mergeSort`
with the comparator's total preorder. -/
def sortByDim (d : ℕ) (rows : List (List ℚ)) : List (List ℚ) :=
  rows.mergeSort (fun a b => decide (dimVal d a ≤ dimVal d b))

/-- The state of `data_rows_copy` after the sorts for dimensions
`0 .. d-1` have run, in loop order (`src/k_means.c:160-167`); `copyAfter
rows 0` is the element-wise copy of the caller's rows made at
`src/k_means.c:135-141`. -/
def copyAfter (data_rows : List (List ℚ)) : ℕ → List (List ℚ)
  | 0 => data_rows
  | d + 1 => sortByDim d (copyAfter data_rows d)

/-- `pivots[j] = (size_t)((2.0 * j) / (k * 2.0) * n)`
(`src/k_means.c:152-157`). -/
def pivotIdx (k n j : ℕ) : ℕ :=
  Nat.floor ((2 * (j : ℚ)) / ((k : ℚ) * 2) * (n : ℚ))

/-- `generate_mean_kernels` (`src/k_means.c:132-174`).  The C loops run
dimension-major (`for i < m: sort copy by i; for j < k:
kernels[j][i] = data_rows_copy[pivots[j]][i]`) and write each kernel
cell exactly once; the model builds the same cells kernel-major:
`kernels[j][i]` is dimension `i` of the row at `pivots[j]` in the copy
state after the sorts for dimensions `0 .. i`. -/
def generate_mean_kernels (data_rows : List (List ℚ)) (n m k : ℕ) :
    List (List ℚ) :=
  (List.range k).map (fun j =>
    (List.range m).map (fun i =>
      dimVal i ((copyAfter data_rows (i + 1)).getD (pivotIdx k n j) [])))

/-- `k_means` (`src/k_means.c:189-274`): initialize the kernels with the
selected strategy, run the loop with `movement = INFINITY`,
`iterations = 0`.  The model returns the final state (the C function
returns its `kernel_followers` field and frees the rest) together with
the iteration count; the outer `Option` is `none` only when the random
initializer's draw list is exhausted (modelling its potential
non-termination). -/
def k_means (sqrt : ℚ → ℚ) (eps : ℚ) (rmax : ℕ) (draws : List ℕ) (k : ℕ)
    (data_rows : List (List ℚ)) (n m : ℕ) (generate_kernels : Bool) :
    Option (Except String (KState × ℕ)) :=
  let kernels? := if generate_kernels then some (generate_mean_kernels data_rows n m k)
                  else pick_random_kernels rmax draws data_rows n m k
  match kernels? with
  | none => none
  | some kernels =>
    some (kMeansGo sqrt eps k m 2500
      { data_rows := data_rows
        kernels := kernels
        kernel_followers := List.replicate n 0
        kernel_follower_count := List.replicate k 0
        kernel_follower_sum := List.replicate k (List.replicate m 0)
        prev_means := List.replicate k (List.replicate m 0) }
      none 0)

/-! ### Basic facts: over exact arithmetic no fatal branch fires -/

theorem ex_bind_ok {α β : Type} (a : α) (f : α → Except String β) :
    (Except.ok a : Except String α) >>= f = f a := rfl

theorem foldl_add_shift {α : Type} (g : α → ℚ) (l : List α) :
    ∀ (c : ℚ), l.foldl (fun acc x => acc + g x) c = c + l.foldl (fun acc x => acc + g x) 0 := by
  induction l with
  | nil => intro c; simp
  | cons a l ih =>
    intro c
    simp only [List.foldl_cons]
    rw [ih (c + g a), ih (0 + g a)]
    ring

theorem foldl_add_nonneg {α : Type} (g : α → ℚ) :
    ∀ (l : List α) (c : ℚ), 0 ≤ c → (∀ a ∈ l, 0 ≤ g a) →
      0 ≤ l.foldl (fun acc x => acc + g x) c
  | [], c, hc, _ => by simpa using hc
  | a :: l, c, hc, hg => by
    simp only [List.foldl_cons]
    exact foldl_add_nonneg g l (c + g a)
      (add_nonneg hc (hg a (List.mem_cons_self a l)))
      (fun b hb => hg b (List.mem_cons_of_mem a hb))

theorem sumSq_nonneg (p q : List ℚ) : 0 ≤ sumSq p q := by
  rw [sumSq]
  exact foldl_add_nonneg _ _ 0 le_rfl (fun a _ => mul_self_nonneg _)

theorem distf64v_eq (sqrt : ℚ → ℚ) (p q : List ℚ) :
    distf64v sqrt p q = .ok (sqrt (sumSq p q)) := by
  simp [distf64v, not_lt.mpr (sumSq_nonneg p q)]

theorem nearestGo_eq (sqrt : ℚ → ℚ) (row : List ℚ) :
    ∀ (rest : List (List ℚ)) (ki : ℕ) (closest : Option ℚ) (ck : ℕ),
      nearestGo sqrt row rest ki closest ck = .ok (nearestGoP sqrt row rest ki closest ck)
  | [], _, _, _ => rfl
  | kern :: rest, ki, closest, ck => by
    rw [nearestGo, nearestGoP, distf64v_eq]
    by_cases h : ltClosest (sqrt (sumSq row kern)) closest = true
    · simp only [h, if_true]; exact nearestGo_eq sqrt row rest (ki + 1) _ ki
    · simp only [h, if_false]; exact nearestGo_eq sqrt row rest (ki + 1) closest ck

theorem nearestKernel_eq (sqrt : ℚ → ℚ) (row : List ℚ) (kernels : List (List ℚ)) :
    nearestKernel sqrt row kernels = .ok (nearestIdx sqrt row kernels) :=
  nearestGo_eq sqrt row kernels 0 none 0

theorem processRow_eq (sqrt : ℚ → ℚ) (s : KState) (pr : ℕ × List ℚ) :
    processRow sqrt s pr = .ok (processRowP sqrt s pr) := by
  rw [processRow, nearestKernel_eq]; rfl

theorem foldlM_except_ok {α β : Type} (f : β → α → Except String β) (g : β → α → β)
    (h : ∀ b a, f b a = .ok (g b a)) :
    ∀ (l : List α) (b : β), l.foldlM f b = .ok (l.foldl g b)
  | [], b => rfl
  | a :: l, b => by
    rw [List.foldlM_cons, h b a, ex_bind_ok, List.foldl_cons]
    exact foldlM_except_ok f g h l (g b a)

theorem assignStep_eq (sqrt : ℚ → ℚ) (s : KState) :
    assignStep sqrt s = .ok (assignStepP sqrt s) :=
  foldlM_except_ok _ _ (processRow_eq sqrt) s.data_rows.enum s

theorem movementCalc_eq (sqrt : ℚ → ℚ) (prev kern : List (List ℚ)) :
    movementCalc sqrt prev kern = .ok (movementSum sqrt prev kern) := by
  refine foldlM_except_ok _ _ (fun mv pq => ?_) (prev.zip kern) 0
  rw [distf64v_eq]; simp

theorem kMeansIter_eq (sqrt : ℚ → ℚ) (k m : ℕ) (s : KState) :
    kMeansIter sqrt k m s = .ok (kMeansIterP sqrt k m s) := by
  rw [kMeansIter, kMeansIterP, assignStep_eq]
  simp only [movementCalc_eq]

theorem kMeansGo_bound (sqrt : ℚ → ℚ) (eps : ℚ) (k m : ℕ) :
    ∀ (fuel : ℕ) (s : KState) (mv : Option ℚ) (it : ℕ) (s' : KState) (iters : ℕ),
      kMeansGo sqrt eps k m fuel s mv it = .ok (s', iters) →
      it ≤ iters ∧ iters ≤ it + fuel
  | 0, s, mv, it, s', iters => by
    intro h
    rw [kMeansGo] at h
    injection h with h'
    injection h' with h1 h2
    omega
  | fuel + 1, s, mv, it, s', iters => by
    intro h
    rw [kMeansGo] at h
    by_cases hmv : movementGE mv eps = true
    · rw [if_pos hmv, kMeansIter_eq] at h
      rcases hKI : kMeansIterP sqrt k m s with ⟨s1, mv1⟩
      rw [hKI] at h
      have := kMeansGo_bound sqrt eps k m fuel s1 (some mv1) (it + 1) s' iters h
      omega
    · rw [if_neg hmv] at h
      injection h with h'
      injection h' with h1 h2
      omega

/-! ### Frame lemmas: which fields each phase can write -/

theorem processRowP_data_rows (sqrt : ℚ → ℚ) (s : KState) (pr : ℕ × List ℚ) :
    (processRowP sqrt s pr).data_rows = s.data_rows := rfl

theorem processRowP_kernels (sqrt : ℚ → ℚ) (s : KState) (pr : ℕ × List ℚ) :
    (processRowP sqrt s pr).kernels = s.kernels := rfl

theorem processRowP_prev_means (sqrt : ℚ → ℚ) (s : KState) (pr : ℕ × List ℚ) :
    (processRowP sqrt s pr).prev_means = s.prev_means := rfl

theorem foldl_processRowP_data_rows (sqrt : ℚ → ℚ) :
    ∀ (l : List (ℕ × List ℚ)) (s : KState),
      (l.foldl (processRowP sqrt) s).data_rows = s.data_rows
  | [], _ => rfl
  | p :: l, s => by
    rw [List.foldl_cons, foldl_processRowP_data_rows sqrt l, processRowP_data_rows]

theorem foldl_processRowP_kernels (sqrt : ℚ → ℚ) :
    ∀ (l : List (ℕ × List ℚ)) (s : KState),
      (l.foldl (processRowP sqrt) s).kernels = s.kernels
  | [], _ => rfl
  | p :: l, s => by
    rw [List.foldl_cons, foldl_processRowP_kernels sqrt l, processRowP_kernels]

theorem foldl_processRowP_prev_means (sqrt : ℚ → ℚ) :
    ∀ (l : List (ℕ × List ℚ)) (s : KState),
      (l.foldl (processRowP sqrt) s).prev_means = s.prev_means
  | [], _ => rfl
  | p :: l, s => by
    rw [List.foldl_cons, foldl_processRowP_prev_means sqrt l, processRowP_prev_means]

theorem foldl_processRowP_followers_length (sqrt : ℚ → ℚ) :
    ∀ (l : List (ℕ × List ℚ)) (s : KState),
      (l.foldl (processRowP sqrt) s).kernel_followers.length = s.kernel_followers.length
  | [], _ => rfl
  | p :: l, s => by
    rw [List.foldl_cons, foldl_processRowP_followers_length sqrt l]
    simp [processRowP]

theorem assignStepP_data_rows (sqrt : ℚ → ℚ) (s : KState) :
    (assignStepP sqrt s).data_rows = s.data_rows :=
  foldl_processRowP_data_rows sqrt _ s

theorem assignStepP_kernels (sqrt : ℚ → ℚ) (s : KState) :
    (assignStepP sqrt s).kernels = s.kernels :=
  foldl_processRowP_kernels sqrt _ s

theorem assignStepP_prev_means (sqrt : ℚ → ℚ) (s : KState) :
    (assignStepP sqrt s).prev_means = s.prev_means :=
  foldl_processRowP_prev_means sqrt _ s

/-! ### Where the Assignment step puts each row -/

theorem nearestGoP_cases (sqrt : ℚ → ℚ) (row : List ℚ) :
    ∀ (rest : List (List ℚ)) (ki : ℕ) (closest : Option ℚ) (ck : ℕ),
      nearestGoP sqrt row rest ki closest ck = ck ∨
        (ki ≤ nearestGoP sqrt row rest ki closest ck ∧
         nearestGoP sqrt row rest ki closest ck < ki + rest.length)
  | [], _, _, _ => Or.inl rfl
  | kern :: rest, ki, closest, ck => by
    rw [nearestGoP]
    by_cases h : ltClosest (sqrt (sumSq row kern)) closest = true
    · rw [if_pos h]
      rcases nearestGoP_cases sqrt row rest (ki + 1) (some (sqrt (sumSq row kern))) ki with h' | h'
      · right; rw [h']; simp
      · right; constructor <;> [omega; (simp only [List.length_cons]; omega)]
    · rw [if_neg h]
      rcases nearestGoP_cases sqrt row rest (ki + 1) closest ck with h' | h'
      · left; exact h'
      · right; constructor <;> [omega; (simp only [List.length_cons]; omega)]

theorem nearestIdx_lt (sqrt : ℚ → ℚ) (row : List ℚ) (kernels : List (List ℚ))
    (h : 1 ≤ kernels.length) : nearestIdx sqrt row kernels < kernels.length := by
  rcases nearestGoP_cases sqrt row kernels 0 none 0 with h' | h'
  · rw [nearestIdx, h']; omega
  · rw [nearestIdx]; omega

theorem take_succ_set {α : Type} (v : α) :
    ∀ (l : List α) (j : ℕ), j < l.length → (l.set j v).take (j + 1) = l.take j ++ [v]
  | [], j, h => absurd h (by simp)
  | a :: l, 0, _ => by simp
  | a :: l, j + 1, h => by
    rw [List.set_cons_succ, List.take_succ_cons, List.take_succ_cons,
      take_succ_set v l j (by simpa using h)]
    rfl

theorem foldl_processRowP_followers (sqrt : ℚ → ℚ) (K : List (List ℚ)) :
    ∀ (rows : List (List ℚ)) (j : ℕ) (s : KState), s.kernels = K →
      s.kernel_followers.length = j + rows.length →
      ((List.enumFrom j rows).foldl (processRowP sqrt) s).kernel_followers
        = s.kernel_followers.take j ++ rows.map (fun row => nearestIdx sqrt row K)
  | [], j, s, _, hlen => by
    simp only [List.length_nil, Nat.add_zero] at hlen
    simp [List.take_of_length_le (le_of_eq hlen)]
  | r :: rows, j, s, hK, hlen => by
    simp only [List.length_cons] at hlen
    rw [List.enumFrom_cons, List.foldl_cons]
    have hplen : (processRowP sqrt s (j, r)).kernel_followers.length
        = s.kernel_followers.length := by
      simp [processRowP]
    have hstep := foldl_processRowP_followers sqrt K rows (j + 1) (processRowP sqrt s (j, r))
      (by rw [processRowP_kernels, hK])
      (by omega)
    rw [hstep]
    have hfl : (processRowP sqrt s (j, r)).kernel_followers
        = s.kernel_followers.set j (nearestIdx sqrt r K) := by
      simp [processRowP, hK]
    rw [hfl, take_succ_set _ _ _ (by omega)]
    simp

theorem assignStepP_followers (sqrt : ℚ → ℚ) (s : KState)
    (hlen : s.kernel_followers.length = s.data_rows.length) :
    (assignStepP sqrt s).kernel_followers
      = s.data_rows.map (fun row => nearestIdx sqrt row s.kernels) := by
  rw [assignStepP]
  have := foldl_processRowP_followers sqrt s.kernels s.data_rows 0 s rfl (by simpa using hlen)
  simpa [List.enum] using this

theorem foldl_processRowP_followers_mem (sqrt : ℚ → ℚ) (K : List (List ℚ)) (k : ℕ)
    (hK : K.length = k) (h1 : 1 ≤ k) :
    ∀ (l : List (ℕ × List ℚ)) (s : KState), s.kernels = K →
      (∀ x ∈ s.kernel_followers, x < k) →
      ∀ x ∈ (l.foldl (processRowP sqrt) s).kernel_followers, x < k
  | [], s, _, hmem => hmem
  | p :: l, s, hker, hmem => by
    rw [List.foldl_cons]
    refine foldl_processRowP_followers_mem sqrt K k hK h1 l _ (by rw [processRowP_kernels, hker]) ?_
    intro x hx
    simp only [processRowP] at hx
    rcases List.mem_or_eq_of_mem_set hx with h' | h'
    · exact hmem x h'
    · subst h'
      rw [hker]
      calc nearestIdx sqrt p.2 K < K.length := nearestIdx_lt sqrt p.2 K (by omega)
        _ = k := hK

/-! ### Access lemmas for `modifyAt` and `updateStep` -/

theorem modifyAt_length {α : Type} (f : α → α) :
    ∀ (l : List α) (i : ℕ), (modifyAt l i f).length = l.length
  | [], _ => rfl
  | _ :: l, 0 => rfl
  | x :: l, i + 1 => by
    rw [modifyAt, List.length_cons, List.length_cons, modifyAt_length f l i]

theorem getD_modifyAt_self {α : Type} (f : α → α) (d : α) :
    ∀ (l : List α) (i : ℕ), i < l.length →
      (modifyAt l i f).getD i d = f (l.getD i d)
  | [], i, h => absurd h (by simp)
  | x :: l, 0, _ => rfl
  | x :: l, i + 1, h => by
    rw [modifyAt, List.getD_cons_succ, List.getD_cons_succ,
      getD_modifyAt_self f d l i (by simpa using h)]

theorem getD_modifyAt_ne {α : Type} (f : α → α) (d : α) :
    ∀ (l : List α) (i j : ℕ), i ≠ j → (modifyAt l i f).getD j d = l.getD j d
  | [], _, _, _ => rfl
  | x :: l, 0, 0, h => absurd rfl h
  | x :: l, 0, j + 1, _ => rfl
  | x :: l, i + 1, 0, _ => rfl
  | x :: l, i + 1, j + 1, h => by
    rw [modifyAt, List.getD_cons_succ, List.getD_cons_succ,
      getD_modifyAt_ne f d l i j (by omega)]

theorem updateStep_length :
    ∀ (ks : List (List ℚ)) (cs : List ℕ) (ss : List (List ℚ)),
      (updateStep ks cs ss).length = ks.length
  | [], cs, ss => by cases cs <;> cases ss <;> rfl
  | kern :: ks, [], ss => rfl
  | kern :: ks, c :: cs, [] => rfl
  | kern :: ks, c :: cs, sv :: ss => by
    rw [updateStep, List.length_cons, List.length_cons, updateStep_length ks cs ss]

theorem updateStep_getD :
    ∀ (ks : List (List ℚ)) (cs : List ℕ) (ss : List (List ℚ)) (ki : ℕ),
      ki < ks.length → ki < cs.length → ki < ss.length →
      (updateStep ks cs ss).getD ki []
        = updateKernel (cs.getD ki 0) (ss.getD ki []) (ks.getD ki [])
  | [], _, _, _, h, _, _ => absurd h (by simp)
  | kern :: ks, [], _, _, _, h, _ => absurd h (by simp)
  | kern :: ks, c :: cs, [], _, _, _, h => absurd h (by simp)
  | kern :: ks, c :: cs, sv :: ss, 0, _, _, _ => rfl
  | kern :: ks, c :: cs, sv :: ss, ki + 1, h1, h2, h3 => by
    rw [updateStep, List.getD_cons_succ, List.getD_cons_succ, List.getD_cons_succ,
      List.getD_cons_succ,
      updateStep_getD ks cs ss ki (by simpa using h1) (by simpa using h2) (by simpa using h3)]

/-! ### Per-iteration facts -/

theorem kMeansIterP_data_rows (sqrt : ℚ → ℚ) (k m : ℕ) (s : KState) :
    (kMeansIterP sqrt k m s).1.data_rows = s.data_rows := by
  simp [kMeansIterP, assignStepP_data_rows]

theorem kMeansIterP_prev_means (sqrt : ℚ → ℚ) (k m : ℕ) (s : KState) :
    (kMeansIterP sqrt k m s).1.prev_means = s.kernels := by
  simp [kMeansIterP, assignStepP_prev_means]

theorem kMeansIterP_kernels_length (sqrt : ℚ → ℚ) (k m : ℕ) (s : KState) :
    (kMeansIterP sqrt k m s).1.kernels.length = s.kernels.length := by
  simp [kMeansIterP, updateStep_length, assignStepP_kernels]

theorem kMeansIterP_followers_length (sqrt : ℚ → ℚ) (k m : ℕ) (s : KState) :
    (kMeansIterP sqrt k m s).1.kernel_followers.length = s.kernel_followers.length := by
  simp [kMeansIterP, assignStepP, foldl_processRowP_followers_length]

theorem kMeansIterP_followers (sqrt : ℚ → ℚ) (k m : ℕ) (s : KState)
    (hlen : s.kernel_followers.length = s.data_rows.length) :
    (kMeansIterP sqrt k m s).1.kernel_followers
      = s.data_rows.map (fun row => nearestIdx sqrt row s.kernels) := by
  simp [kMeansIterP, assignStepP_followers, hlen]

theorem kMeansIterP_followers_mem (sqrt : ℚ → ℚ) (k m : ℕ) (s : KState) (kk : ℕ)
    (hker : s.kernels.length = kk) (h1 : 1 ≤ kk)
    (hmem : ∀ x ∈ s.kernel_followers, x < kk) :
    ∀ x ∈ (kMeansIterP sqrt k m s).1.kernel_followers, x < kk := by
  intro x hx
  simp only [kMeansIterP, assignStepP] at hx
  exact foldl_processRowP_followers_mem sqrt s.kernels kk hker h1 s.data_rows.enum
    { s with prev_means := s.kernels, kernel_follower_count := List.replicate k 0, kernel_follower_sum := List.replicate k (List.replicate m 0) } rfl hmem x hx

/-! ### Loop-level preservation -/

theorem kMeansGo_data_rows (sqrt : ℚ → ℚ) (eps : ℚ) (k m : ℕ) :
    ∀ (fuel : ℕ) (s : KState) (mv : Option ℚ) (it : ℕ) (s' : KState) (iters : ℕ),
      kMeansGo sqrt eps k m fuel s mv it = .ok (s', iters) → s'.data_rows = s.data_rows
  | 0, s, mv, it, s', iters => by
    intro h
    rw [kMeansGo] at h
    injection h with h'
    injection h' with h1 h2
    rw [← h1]
  | fuel + 1, s, mv, it, s', iters => by
    intro h
    rw [kMeansGo] at h
    by_cases hmv : movementGE mv eps = true
    · rw [if_pos hmv, kMeansIter_eq] at h
      rcases hKI : kMeansIterP sqrt k m s with ⟨s1, mv1⟩
      rw [hKI] at h
      have h2 := kMeansGo_data_rows sqrt eps k m fuel s1 (some mv1) (it + 1) s' iters h
      have h3 := kMeansIterP_data_rows sqrt k m s
      rw [hKI] at h3
      rw [h2, h3]
    · rw [if_neg hmv] at h
      injection h with h'
      injection h' with h1 h2
      rw [← h1]

theorem kMeansGo_followers_mem (sqrt : ℚ → ℚ) (eps : ℚ) (k m kk : ℕ) (h1 : 1 ≤ kk) :
    ∀ (fuel : ℕ) (s : KState) (mv : Option ℚ) (it : ℕ) (s' : KState) (iters : ℕ),
      kMeansGo sqrt eps k m fuel s mv it = .ok (s', iters) →
      s.kernels.length = kk → (∀ x ∈ s.kernel_followers, x < kk) →
      ∀ x ∈ s'.kernel_followers, x < kk
  | 0, s, mv, it, s', iters => by
    intro h hker hmem
    rw [kMeansGo] at h
    injection h with h'
    injection h' with hs _
    rw [← hs]
    exact hmem
  | fuel + 1, s, mv, it, s', iters => by
    intro h hker hmem
    rw [kMeansGo] at h
    by_cases hmv : movementGE mv eps = true
    · rw [if_pos hmv, kMeansIter_eq] at h
      rcases hKI : kMeansIterP sqrt k m s with ⟨s1, mv1⟩
      rw [hKI] at h
      have hker1 := kMeansIterP_kernels_length sqrt k m s
      have hmem1 := kMeansIterP_followers_mem sqrt k m s kk hker h1 hmem
      rw [hKI] at hker1 hmem1
      exact kMeansGo_followers_mem sqrt eps k m kk h1 fuel s1 (some mv1) (it + 1) s' iters h
        (by rw [hker1, hker]) hmem1
    · rw [if_neg hmv] at h
      injection h with h'
      injection h' with hs _
      rw [← hs]
      exact hmem

theorem kMeansGo_preserves_assigned (sqrt : ℚ → ℚ) (eps : ℚ) (k m : ℕ) :
    ∀ (fuel : ℕ) (s : KState) (mv : Option ℚ) (it : ℕ) (s' : KState) (iters : ℕ),
      kMeansGo sqrt eps k m fuel s mv it = .ok (s', iters) →
      s.kernel_followers.length = s.data_rows.length →
      s.kernel_followers = s.data_rows.map (fun row => nearestIdx sqrt row s.prev_means) →
      s'.kernel_followers = s'.data_rows.map (fun row => nearestIdx sqrt row s'.prev_means)
  | 0, s, mv, it, s', iters => by
    intro h _ hR
    rw [kMeansGo] at h
    injection h with h'
    injection h' with hs _
    rw [← hs]
    exact hR
  | fuel + 1, s, mv, it, s', iters => by
    intro h hlen hR
    rw [kMeansGo] at h
    by_cases hmv : movementGE mv eps = true
    · rw [if_pos hmv, kMeansIter_eq] at h
      rcases hKI : kMeansIterP sqrt k m s with ⟨s1, mv1⟩
      rw [hKI] at h
      have hfol := kMeansIterP_followers sqrt k m s hlen
      have hdr := kMeansIterP_data_rows sqrt k m s
      have hpm := kMeansIterP_prev_means sqrt k m s
      have hfl := kMeansIterP_followers_length sqrt k m s
      rw [hKI] at hfol hdr hpm hfl
      refine kMeansGo_preserves_assigned sqrt eps k m fuel s1 (some mv1) (it + 1) s' iters h
        ?_ ?_
      · rw [hfl, hdr, hlen]
      · rw [hfol, hdr, hpm]
    · rw [if_neg hmv] at h
      injection h with h'
      injection h' with hs _
      rw [← hs]
      exact hR

/-! ### Initializer shape lemmas -/

theorem generate_mean_kernels_length (data_rows : List (List ℚ)) (n m k : ℕ) :
    (generate_mean_kernels data_rows n m k).length = k := by
  simp [generate_mean_kernels]

theorem pickRowsGo_length (rmax n : ℕ) :
    ∀ (j : ℕ) (draws chosen l : List ℕ),
      pickRowsGo rmax n j draws chosen = some l → l.length = chosen.length + j
  | 0, draws, chosen, l => by
    intro h
    rw [pickRowsGo] at h
    injection h with h
    simp [← h]
  | j + 1, draws, chosen, l => by
    intro h
    rw [pickRowsGo] at h
    rcases hd : drawFresh rmax n chosen draws with _ | ⟨row, rest⟩
    · rw [hd] at h; cases h
    · rw [hd] at h
      have := pickRowsGo_length rmax n j rest (chosen ++ [row]) l h
      simp only [List.length_append, List.length_cons, List.length_nil] at this
      omega

theorem pick_random_kernels_length (rmax : ℕ) (draws : List ℕ)
    (data_rows : List (List ℚ)) (n m k : ℕ) (ks : List (List ℚ))
    (h : pick_random_kernels rmax draws data_rows n m k = some ks) : ks.length = k := by
  rcases hp : pickRowsGo rmax n k draws [] with _ | idxs
  · rw [pick_random_kernels, hp] at h; cases h
  · rw [pick_random_kernels, hp] at h
    have := pickRowsGo_length rmax n k draws [] idxs hp
    simp only [List.length_nil] at this
    injection h with h
    rw [← h, List.length_map]
    omega

/-! ### The Assignment step picks the lowest-index nearest kernel -/

theorem getD_append_cons {α : Type} (d0 : α) :
    ∀ (pre : List α) (x : α) (suf : List α), (pre ++ x :: suf).getD pre.length d0 = x
  | [], _, _ => rfl
  | a :: pre, x, suf => by
    simp only [List.cons_append, List.length_cons, List.getD_cons_succ]
    exact getD_append_cons d0 pre x suf

theorem nearestGoP_spec (sqrt : ℚ → ℚ) (row : List ℚ) (ks : List (List ℚ)) :
    ∀ (rest pre : List (List ℚ)) (closest : Option ℚ) (ck : ℕ),
      ks = pre ++ rest →
      (closest = none → pre = [] ∧ ck = 0) →
      (∀ c, closest = some c →
        ck < pre.length ∧ c = sqrt (sumSq row (ks.getD ck [])) ∧
        (∀ i, i < pre.length → c ≤ sqrt (sumSq row (ks.getD i []))) ∧
        (∀ i, i < ck → c < sqrt (sumSq row (ks.getD i [])))) →
      1 ≤ ks.length →
      nearestGoP sqrt row rest pre.length closest ck < ks.length ∧
      (∀ i, i < ks.length →
        sqrt (sumSq row (ks.getD (nearestGoP sqrt row rest pre.length closest ck) []))
          ≤ sqrt (sumSq row (ks.getD i []))) ∧
      (∀ i, i < nearestGoP sqrt row rest pre.length closest ck →
        sqrt (sumSq row (ks.getD (nearestGoP sqrt row rest pre.length closest ck) []))
          < sqrt (sumSq row (ks.getD i [])))
  | [], pre, closest, ck => by
    intro hks hnone hsome h1
    rw [nearestGoP]
    cases closest with
    | none =>
      obtain ⟨hpre, _⟩ := hnone rfl
      subst hpre
      simp only [List.nil_append] at hks
      rw [hks] at h1
      simp at h1
    | some c =>
      obtain ⟨hck, hc, hle, hlt⟩ := hsome c rfl
      have hlen : pre.length = ks.length := by rw [hks]; simp
      refine ⟨by omega, ?_, ?_⟩
      · intro i hi
        rw [← hc]
        exact hle i (by omega)
      · intro i hi
        rw [← hc]
        exact hlt i hi
  | kern :: rest', pre, closest, ck => by
    intro hks hnone hsome h1
    rw [nearestGoP]
    have hkern : ks.getD pre.length [] = kern := by
      rw [hks]; exact getD_append_cons [] pre kern rest'
    have hks' : ks = (pre ++ [kern]) ++ rest' := by rw [hks]; simp
    have hplen : (pre ++ [kern]).length = pre.length + 1 := by simp
    by_cases h : ltClosest (sqrt (sumSq row kern)) closest = true
    · rw [if_pos h]
      have hnone' : (some (sqrt (sumSq row kern)) : Option ℚ) = none →
          pre ++ [kern] = [] ∧ pre.length = 0 := by intro hcon; cases hcon
      have hsome' : ∀ c', (some (sqrt (sumSq row kern)) : Option ℚ) = some c' →
          pre.length < (pre ++ [kern]).length ∧
          c' = sqrt (sumSq row (ks.getD pre.length [])) ∧
          (∀ i, i < (pre ++ [kern]).length → c' ≤ sqrt (sumSq row (ks.getD i []))) ∧
          (∀ i, i < pre.length → c' < sqrt (sumSq row (ks.getD i []))) := by
        intro c' hc'
        injection hc' with hc'
        subst hc'
        refine ⟨by simp, by rw [hkern], ?_, ?_⟩
        · intro i hi
          rw [hplen] at hi
          rcases Nat.lt_succ_iff_lt_or_eq.mp hi with hi' | hi'
          · cases closest with
            | none =>
              obtain ⟨hpre, _⟩ := hnone rfl
              rw [hpre] at hi'
              exact absurd hi' (by simp)
            | some c =>
              obtain ⟨_, _, hle, _⟩ := hsome c rfl
              simp only [ltClosest, decide_eq_true_eq] at h
              exact le_of_lt (lt_of_lt_of_le h (hle i hi'))
          · subst hi'
            rw [hkern]
        · intro i hi
          cases closest with
          | none =>
            obtain ⟨hpre, _⟩ := hnone rfl
            rw [hpre] at hi
            exact absurd hi (by simp)
          | some c =>
            obtain ⟨_, _, hle, _⟩ := hsome c rfl
            simp only [ltClosest, decide_eq_true_eq] at h
            exact lt_of_lt_of_le h (hle i hi)
      have IH := nearestGoP_spec sqrt row ks rest' (pre ++ [kern])
        (some (sqrt (sumSq row kern))) pre.length hks' hnone' hsome' h1
      rw [hplen] at IH
      exact IH
    · rw [if_neg h]
      cases closest with
      | none => exact absurd rfl h
      | some c =>
        obtain ⟨hck, hc, hle, hlt⟩ := hsome c rfl
        have hcd : c ≤ sqrt (sumSq row kern) := by
          simp only [ltClosest, decide_eq_true_eq] at h
          exact not_lt.mp h
        have hnone' : (some c : Option ℚ) = none → pre ++ [kern] = [] ∧ ck = 0 := by
          intro hcon; cases hcon
        have hsome' : ∀ c', (some c : Option ℚ) = some c' →
            ck < (pre ++ [kern]).length ∧
            c' = sqrt (sumSq row (ks.getD ck [])) ∧
            (∀ i, i < (pre ++ [kern]).length → c' ≤ sqrt (sumSq row (ks.getD i []))) ∧
            (∀ i, i < ck → c' < sqrt (sumSq row (ks.getD i []))) := by
          intro c' hc'
          injection hc' with hc'
          subst hc'
          refine ⟨by rw [hplen]; omega, hc, ?_, hlt⟩
          intro i hi
          rw [hplen] at hi
          rcases Nat.lt_succ_iff_lt_or_eq.mp hi with hi' | hi'
          · exact hle i hi'
          · subst hi'
            rw [hkern]
            exact hcd
        have IH := nearestGoP_spec sqrt row ks rest' (pre ++ [kern]) (some c) ck
          hks' hnone' hsome' h1
        rw [hplen] at IH
        exact IH

theorem nearestIdx_spec (sqrt : ℚ → ℚ) (row : List ℚ) (ks : List (List ℚ))
    (h1 : 1 ≤ ks.length) :
    nearestIdx sqrt row ks < ks.length ∧
    (∀ i, i < ks.length →
      sqrt (sumSq row (ks.getD (nearestIdx sqrt row ks) []))
        ≤ sqrt (sumSq row (ks.getD i []))) ∧
    (∀ i, i < nearestIdx sqrt row ks →
      sqrt (sumSq row (ks.getD (nearestIdx sqrt row ks) []))
        < sqrt (sumSq row (ks.getD i []))) := by
  have := nearestGoP_spec sqrt row ks ks [] none 0 (by simp)
    (fun _ => ⟨rfl, rfl⟩) (fun c hcon => by cases hcon) h1
  simpa [nearestIdx] using this

/-! ### Fold sums as indexed sums -/

theorem sumSq_eq_sum :
    ∀ (m : ℕ) (p q : List ℚ), p.length = m → q.length = m →
      sumSq p q = ∑ i ∈ Finset.range m,
        (p.getD i 0 - q.getD i 0) * (p.getD i 0 - q.getD i 0)
  | 0, p, q => by
    intro hp hq
    rw [List.length_eq_zero.mp hp, List.length_eq_zero.mp hq]
    simp [sumSq]
  | m + 1, [], q => by intro hp _; simp at hp
  | m + 1, a :: p, [] => by intro _ hq; simp at hq
  | m + 1, a :: p, b :: q => by
    intro hp hq
    have hcons : sumSq (a :: p) (b :: q) = (a - b) * (a - b) + sumSq p q := by
      rw [sumSq, sumSq, List.zip_cons_cons, List.foldl_cons, foldl_add_shift]
      ring
    rw [hcons, Finset.sum_range_succ',
      sumSq_eq_sum m p q (by simpa using hp) (by simpa using hq)]
    simp only [List.getD_cons_succ, List.getD_cons_zero]
    ring

theorem movementSum_eq_sum (sqrt : ℚ → ℚ) :
    ∀ (k : ℕ) (prev kern : List (List ℚ)), prev.length = k → kern.length = k →
      movementSum sqrt prev kern
        = ∑ i ∈ Finset.range k, sqrt (sumSq (prev.getD i []) (kern.getD i []))
  | 0, prev, kern => by
    intro hp hq
    rw [List.length_eq_zero.mp hp, List.length_eq_zero.mp hq]
    simp [movementSum]
  | k + 1, [], kern => by intro hp _; simp at hp
  | k + 1, p :: prev, [] => by intro _ hq; simp at hq
  | k + 1, p :: prev, q :: kern => by
    intro hp hq
    have hcons : movementSum sqrt (p :: prev) (q :: kern)
        = sqrt (sumSq p q) + movementSum sqrt prev kern := by
      rw [movementSum, movementSum, List.zip_cons_cons, List.foldl_cons, foldl_add_shift]
      ring
    rw [hcons, Finset.sum_range_succ',
      movementSum_eq_sum sqrt k prev kern (by simpa using hp) (by simpa using hq)]
    simp only [List.getD_cons_succ, List.getD_cons_zero]
    ring

theorem movementSum_nonneg (sqrt : ℚ → ℚ) (prev kern : List (List ℚ))
    (hsq : ∀ x, 0 ≤ x → 0 ≤ sqrt x) : 0 ≤ movementSum sqrt prev kern := by
  rw [movementSum]
  exact foldl_add_nonneg _ _ 0 le_rfl (fun a _ => hsq _ (sumSq_nonneg _ _))

/-! ### Percentile sampling: sorted order statistics -/

theorem sortByDim_perm (d : ℕ) (rows : List (List ℚ)) :
    (sortByDim d rows).Perm rows :=
  List.mergeSort_perm rows _

theorem copyAfter_perm (data_rows : List (List ℚ)) :
    ∀ (t : ℕ), (copyAfter data_rows t).Perm data_rows
  | 0 => List.Perm.refl _
  | t + 1 => (sortByDim_perm t (copyAfter data_rows t)).trans (copyAfter_perm data_rows t)

theorem sortByDim_map_dimVal (d : ℕ) (rows : List (List ℚ)) :
    (sortByDim d rows).map (dimVal d)
      = (rows.map (dimVal d)).mergeSort (fun a b => decide (a ≤ b)) := by
  rw [sortByDim]
  exact List.map_mergeSort (fun a _ b _ => rfl)

theorem mergeSort_rat_sorted (l : List ℚ) :
    (l.mergeSort (fun a b => decide (a ≤ b))).Pairwise (fun a b : ℚ => a ≤ b) := by
  have hp : (l.mergeSort (fun a b => decide (a ≤ b))).Pairwise
      (fun a b : ℚ => decide (a ≤ b) = true) :=
    List.sorted_mergeSort
      (fun a b c hab hbc => by
        simp only [decide_eq_true_eq] at *
        exact le_trans hab hbc)
      (fun a b => by simpa using le_total a b) l
  exact hp.imp (fun h => by simpa using h)

theorem mergeSort_rat_congr_perm (l₁ l₂ : List ℚ) (h : l₁.Perm l₂) :
    l₁.mergeSort (fun a b => decide (a ≤ b)) = l₂.mergeSort (fun a b => decide (a ≤ b)) := by
  apply List.eq_of_perm_of_sorted (r := fun a b : ℚ => a ≤ b)
  · exact (List.mergeSort_perm l₁ _).trans (h.trans (List.mergeSort_perm l₂ _).symm)
  · exact mergeSort_rat_sorted l₁
  · exact mergeSort_rat_sorted l₂

theorem pivotIdx_lt (k n j : ℕ) (hj : j < k) (hn : 1 ≤ n) : pivotIdx k n j < n := by
  rw [pivotIdx]
  have hk0 : (0 : ℚ) < (k : ℚ) := by exact_mod_cast Nat.lt_of_lt_of_le Nat.zero_lt_one (by omega)
  have hn0 : (0 : ℚ) < (n : ℚ) := by exact_mod_cast hn
  have hjk : (j : ℚ) < (k : ℚ) := by exact_mod_cast hj
  have h1 : (2 * (j : ℚ)) / ((k : ℚ) * 2) < 1 := by
    rw [div_lt_one (by positivity)]
    nlinarith
  have harg : (2 * (j : ℚ)) / ((k : ℚ) * 2) * (n : ℚ) < (n : ℚ) := by nlinarith
  have hnn : 0 ≤ (2 * (j : ℚ)) / ((k : ℚ) * 2) * (n : ℚ) := by positivity
  exact_mod_cast (Nat.floor_lt hnn).mpr harg

/-! ### Unfolding helpers for the top-level entry point -/

theorem getD_map_of_lt {α β : Type} (f : α → β) (d : β) (d0 : α) :
    ∀ (l : List α) (i : ℕ), i < l.length → (l.map f).getD i d = f (l.getD i d0)
  | [], i, h => absurd h (by simp)
  | a :: l, 0, _ => rfl
  | a :: l, i + 1, h => by
    simp only [List.map_cons, List.getD_cons_succ]
    exact getD_map_of_lt f d d0 l i (by simpa using h)

theorem getD_range (k j : ℕ) (hj : j < k) : (List.range k).getD j 0 = j := by
  rw [List.getD_eq_getElem _ _ (by simpa using hj), List.getElem_range]

theorem k_means_eq (sqrt : ℚ → ℚ) (eps : ℚ) (rmax : ℕ) (draws : List ℕ) (k : ℕ)
    (data_rows : List (List ℚ)) (n m : ℕ) (gen : Bool) (kernels : List (List ℚ))
    (hko : (if gen = true then some (generate_mean_kernels data_rows n m k)
            else pick_random_kernels rmax draws data_rows n m k) = some kernels) :
    k_means sqrt eps rmax draws k data_rows n m gen
      = some (kMeansGo sqrt eps k m 2500
          { data_rows := data_rows
            kernels := kernels
            kernel_followers := List.replicate n 0
            kernel_follower_count := List.replicate k 0
            kernel_follower_sum := List.replicate k (List.replicate m 0)
            prev_means := List.replicate k (List.replicate m 0) }
          none 0) := by
  rw [k_means, hko]

theorem k_means_none (sqrt : ℚ → ℚ) (eps : ℚ) (rmax : ℕ) (draws : List ℕ) (k : ℕ)
    (data_rows : List (List ℚ)) (n m : ℕ) (gen : Bool)
    (hko : (if gen = true then some (generate_mean_kernels data_rows n m k)
            else pick_random_kernels rmax draws data_rows n m k) = none) :
    k_means sqrt eps rmax draws k data_rows n m gen = none := by
  rw [k_means, hko]

theorem init_kernels_length (rmax : ℕ) (draws : List ℕ) (k : ℕ)
    (data_rows : List (List ℚ)) (n m : ℕ) (gen : Bool) (kernels : List (List ℚ))
    (hko : (if gen = true then some (generate_mean_kernels data_rows n m k)
            else pick_random_kernels rmax draws data_rows n m k) = some kernels) :
    kernels.length = k := by
  by_cases hg : gen = true
  · rw [if_pos hg] at hko
    injection hko with hko
    rw [← hko]
    exact generate_mean_kernels_length data_rows n m k
  · rw [if_neg hg] at hko
    exact pick_random_kernels_length rmax draws data_rows n m k kernels hko

/-! ### The claims -/

/-- C1: for every valid input (1 ≤ k, k ≤ n, m ≥ 1, n ≥ 1; finiteness is
built into the exact value domain), every value in the `kernel_followers`
array returned by `k_means` lies in the range `[0, k)`.  (`k ≥ 1` is part
of validity: with `k = 0` the C code writes `kernel_follower_count[0]`
into a zero-length allocation, which has no defined behaviour to model.) -/
theorem k_means_assignment_in_range
    (sqrt : ℚ → ℚ) (eps : ℚ) (rmax : ℕ) (draws : List ℕ) (k : ℕ)
    (data_rows : List (List ℚ)) (n m : ℕ) (gen : Bool)
    (hk : 1 ≤ k) (hkn : k ≤ n) (hn : 1 ≤ n) (hm : 1 ≤ m)
    (hrows : data_rows.length = n) (hcols : ∀ r ∈ data_rows, r.length = m)
    (s' : KState) (iters : ℕ)
    (hrun : k_means sqrt eps rmax draws k data_rows n m gen = some (.ok (s', iters))) :
    ∀ x ∈ s'.kernel_followers, x < k := by
  rcases hko : (if gen = true then some (generate_mean_kernels data_rows n m k)
      else pick_random_kernels rmax draws data_rows n m k) with _ | kernels
  · rw [k_means_none sqrt eps rmax draws k data_rows n m gen hko] at hrun
    cases hrun
  · rw [k_means_eq sqrt eps rmax draws k data_rows n m gen kernels hko] at hrun
    injection hrun with hrun
    refine kMeansGo_followers_mem sqrt eps k m k hk 2500 _ none 0 s' iters hrun
      (init_kernels_length rmax draws k data_rows n m gen kernels hko) ?_
    intro x hx
    have := List.eq_of_mem_replicate hx
    omega

/-- C1 witness: a concrete run with `k = 2 ≤ n = 3` under the
random-sampling strategy; every returned assignment is `< 2`. -/
theorem k_means_assignment_in_range_witness : (0 : ℕ) < 2 ∧ (1 : ℕ) < 2 := by
  have h := k_means_assignment_in_range (fun x => x) 1 100 [0, 50, 99] 2 [[0], [3], [10]]
    3 1 false (by decide) (by decide) (by decide) (by decide)
    (by with_unfolding_all decide) (by with_unfolding_all decide)
    ⟨[[0], [3], [10]], [[(3 : ℚ)/2], [10]], [0, 0, 1], [2, 1], [[3], [10]], [[(3 : ℚ)/2], [10]]⟩
    3 (by with_unfolding_all rfl)
  exact ⟨h 0 (by decide), h 1 (by decide)⟩

/-- C2: the main loop's iteration counter only grows (`it ≤ iters`) and the
loop stops at the fixed cap: whenever the loop is entered with
`it + fuel ≤ 2500` fuel-many passes remaining (the top-level `k_means`
enters it with `it = 0`, `fuel = 2500`), the final count is at most 2500,
so every run performs at most 2500 iterations.  The loop condition
`movement ≥ ε ∧ iterations < 2500` is the definition of `kMeansGo`. -/
theorem k_means_iteration_cap
    (sqrt : ℚ → ℚ) (eps : ℚ) (k m fuel : ℕ) (s : KState) (mv : Option ℚ)
    (it : ℕ) (s' : KState) (iters : ℕ)
    (hrun : kMeansGo sqrt eps k m fuel s mv it = .ok (s', iters))
    (hfuel : it + fuel ≤ 2500) :
    it ≤ iters ∧ iters ≤ 2500 := by
  have := kMeansGo_bound sqrt eps k m fuel s mv it s' iters hrun
  omega

/-- C2 witness: the cap bound evaluated on a concrete converging run. -/
theorem k_means_iteration_cap_witness : (0 : ℕ) ≤ 1 ∧ (1 : ℕ) ≤ 2500 :=
  k_means_iteration_cap (fun x => x) 1 1 1 2500
    ⟨[[0]], [[0]], [0], [0], [[0]], [[0]]⟩ none 0
    ⟨[[0]], [[0]], [0], [1], [[0]], [[0]]⟩ 1
    (by with_unfolding_all rfl) (by decide)

/-- C5: `distf64v` returns the value of the `sqrt` parameter applied to
`Σ (p_i - q_i)²` (the `sumSq` fold equals that indexed sum), the
sum-of-squares is never negative and the result is never a non-number in
exact arithmetic, so neither fatal branch is taken (the result is
`Except.ok`), and the returned distance is non-negative whenever `sqrt`
maps non-negatives to non-negatives. -/
theorem distf64v_spec (sqrt : ℚ → ℚ) (p q : List ℚ) (m : ℕ)
    (hp : p.length = m) (hq : q.length = m)
    (hsq : ∀ x, 0 ≤ x → 0 ≤ sqrt x) :
    distf64v sqrt p q = .ok (sqrt (sumSq p q)) ∧
    sumSq p q = ∑ i ∈ Finset.range m,
      (p.getD i 0 - q.getD i 0) * (p.getD i 0 - q.getD i 0) ∧
    0 ≤ sumSq p q ∧ 0 ≤ sqrt (sumSq p q) :=
  ⟨distf64v_eq sqrt p q, sumSq_eq_sum m p q hp hq, sumSq_nonneg p q,
    hsq _ (sumSq_nonneg p q)⟩

/-- C5 witness: the distance of `[1, 2]` and `[3, 4]` under `sqrt = id`. -/
theorem distf64v_spec_witness :
    distf64v (fun x => x) [1, 2] [3, 4] = .ok ((fun x : ℚ => x) (sumSq [1, 2] [3, 4])) ∧
    sumSq [1, 2] [3, 4] = ∑ i ∈ Finset.range 2,
      (([(1 : ℚ), 2]).getD i 0 - ([(3 : ℚ), 4]).getD i 0) *
        (([(1 : ℚ), 2]).getD i 0 - ([(3 : ℚ), 4]).getD i 0) ∧
    0 ≤ sumSq [1, 2] [3, 4] ∧ 0 ≤ (fun x : ℚ => x) (sumSq [1, 2] [3, 4]) :=
  distf64v_spec (fun x => x) [1, 2] [3, 4] 2 (by decide) (by decide) (fun x hx => hx)

/-- C9: neither initialization strategy nor the iteration loop mutates the
caller's dataset: every write in the modelled run targets the run's own
buffers, and the `data_rows` component of the final state equals the
dataset passed in. -/
theorem k_means_preserves_data_rows
    (sqrt : ℚ → ℚ) (eps : ℚ) (rmax : ℕ) (draws : List ℕ) (k : ℕ)
    (data_rows : List (List ℚ)) (n m : ℕ) (gen : Bool)
    (s' : KState) (iters : ℕ)
    (hrun : k_means sqrt eps rmax draws k data_rows n m gen = some (.ok (s', iters))) :
    s'.data_rows = data_rows := by
  rcases hko : (if gen = true then some (generate_mean_kernels data_rows n m k)
      else pick_random_kernels rmax draws data_rows n m k) with _ | kernels
  · rw [k_means_none sqrt eps rmax draws k data_rows n m gen hko] at hrun
    cases hrun
  · rw [k_means_eq sqrt eps rmax draws k data_rows n m gen kernels hko] at hrun
    injection hrun with hrun
    exact kMeansGo_data_rows sqrt eps k m 2500 _ none 0 s' iters hrun

/-- C9 witness: the dataset of a concrete run is returned unchanged. -/
theorem k_means_preserves_data_rows_witness :
    (⟨[[0]], [[0]], [0], [1], [[0]], [[0]]⟩ : KState).data_rows = [[0]] :=
  k_means_preserves_data_rows (fun x => x) 1 1 [] 1 [[0]] 1 1 true _ 1
    (by with_unfolding_all rfl)

/-- C3: for every row, the selected kernel is the one of strictly minimal
computed distance (`sqrt` of the sum of squared differences, the value
`distf64v` returns) among kernels `0 .. k-1`, ties broken in favour of the
lowest index (scan order `0 .. k-1`, strict less-than test); the winning
index `j` is recorded in `kernel_followers[ri]`, kernel `j`'s follower
count is incremented by one, the other counts are untouched, and the row
is added element-wise into kernel `j`'s running-sum accumulator, the other
accumulators untouched. -/
theorem assignment_step_spec
    (sqrt : ℚ → ℚ) (row : List ℚ) (k : ℕ) (s : KState) (ri : ℕ)
    (hk : s.kernels.length = k) (hk1 : 1 ≤ k)
    (hcnt : s.kernel_follower_count.length = k)
    (hsum : s.kernel_follower_sum.length = k) :
    nearestKernel sqrt row s.kernels = .ok (nearestIdx sqrt row s.kernels) ∧
    nearestIdx sqrt row s.kernels < k ∧
    (∀ i, i < k → sqrt (sumSq row (s.kernels.getD (nearestIdx sqrt row s.kernels) []))
        ≤ sqrt (sumSq row (s.kernels.getD i []))) ∧
    (∀ i, i < nearestIdx sqrt row s.kernels →
      sqrt (sumSq row (s.kernels.getD (nearestIdx sqrt row s.kernels) []))
        < sqrt (sumSq row (s.kernels.getD i []))) ∧
    processRow sqrt s (ri, row) = .ok (processRowP sqrt s (ri, row)) ∧
    (processRowP sqrt s (ri, row)).kernel_followers
      = s.kernel_followers.set ri (nearestIdx sqrt row s.kernels) ∧
    (processRowP sqrt s (ri, row)).kernel_follower_count.getD (nearestIdx sqrt row s.kernels) 0
      = s.kernel_follower_count.getD (nearestIdx sqrt row s.kernels) 0 + 1 ∧
    (∀ i, i ≠ nearestIdx sqrt row s.kernels →
      (processRowP sqrt s (ri, row)).kernel_follower_count.getD i 0
        = s.kernel_follower_count.getD i 0) ∧
    (processRowP sqrt s (ri, row)).kernel_follower_sum.getD (nearestIdx sqrt row s.kernels) []
      = addVec (s.kernel_follower_sum.getD (nearestIdx sqrt row s.kernels) []) row ∧
    (∀ i, i ≠ nearestIdx sqrt row s.kernels →
      (processRowP sqrt s (ri, row)).kernel_follower_sum.getD i []
        = s.kernel_follower_sum.getD i []) := by
  obtain ⟨hlt, hle, hstrict⟩ := nearestIdx_spec sqrt row s.kernels (by omega)
  refine ⟨nearestKernel_eq sqrt row s.kernels, by omega,
    (fun i hi => hle i (by omega)), hstrict,
    processRow_eq sqrt s (ri, row), rfl, ?_, ?_, ?_, ?_⟩
  · simp only [processRowP]
    exact getD_modifyAt_self _ 0 _ _ (by omega)
  · intro i hi
    simp only [processRowP]
    exact getD_modifyAt_ne _ 0 _ _ _ (fun h => hi h.symm)
  · simp only [processRowP]
    exact getD_modifyAt_self _ [] _ _ (by omega)
  · intro i hi
    simp only [processRowP]
    exact getD_modifyAt_ne _ [] _ _ _ (fun h => hi h.symm)

/-- C3 witness: row `[0]` against five one-dimensional kernels; the
closest kernels are at indices 3 and 4 and index 3 wins the tie; its
follower count is bumped and its accumulator receives the row. -/
theorem assignment_step_spec_witness :
    nearestKernel (fun x => x) [0] (⟨[], [[5], [1], [1], [0], [0]], [], [0, 0, 0, 0, 0], [[0], [0], [0], [0], [0]], []⟩ : KState).kernels = .ok (nearestIdx (fun x => x) [0] (⟨[], [[5], [1], [1], [0], [0]], [], [0, 0, 0, 0, 0], [[0], [0], [0], [0], [0]], []⟩ : KState).kernels) ∧
    nearestIdx (fun x => x) [0] (⟨[], [[5], [1], [1], [0], [0]], [], [0, 0, 0, 0, 0], [[0], [0], [0], [0], [0]], []⟩ : KState).kernels < 5 ∧
    processRow (fun x => x) (⟨[], [[5], [1], [1], [0], [0]], [], [0, 0, 0, 0, 0], [[0], [0], [0], [0], [0]], []⟩ : KState) (0, [0]) = .ok (processRowP (fun x => x) (⟨[], [[5], [1], [1], [0], [0]], [], [0, 0, 0, 0, 0], [[0], [0], [0], [0], [0]], []⟩ : KState) (0, [0])) ∧
    (processRowP (fun x => x) (⟨[], [[5], [1], [1], [0], [0]], [], [0, 0, 0, 0, 0], [[0], [0], [0], [0], [0]], []⟩ : KState) (0, [0])).kernel_follower_count.getD (nearestIdx (fun x => x) [0] (⟨[], [[5], [1], [1], [0], [0]], [], [0, 0, 0, 0, 0], [[0], [0], [0], [0], [0]], []⟩ : KState).kernels) 0
      = (⟨[], [[5], [1], [1], [0], [0]], [], [0, 0, 0, 0, 0], [[0], [0], [0], [0], [0]], []⟩ : KState).kernel_follower_count.getD (nearestIdx (fun x => x) [0] (⟨[], [[5], [1], [1], [0], [0]], [], [0, 0, 0, 0, 0], [[0], [0], [0], [0], [0]], []⟩ : KState).kernels) 0 + 1 ∧
    (processRowP (fun x => x) (⟨[], [[5], [1], [1], [0], [0]], [], [0, 0, 0, 0, 0], [[0], [0], [0], [0], [0]], []⟩ : KState) (0, [0])).kernel_follower_sum.getD (nearestIdx (fun x => x) [0] (⟨[], [[5], [1], [1], [0], [0]], [], [0, 0, 0, 0, 0], [[0], [0], [0], [0], [0]], []⟩ : KState).kernels) []
      = addVec ((⟨[], [[5], [1], [1], [0], [0]], [], [0, 0, 0, 0, 0], [[0], [0], [0], [0], [0]], []⟩ : KState).kernel_follower_sum.getD (nearestIdx (fun x => x) [0] (⟨[], [[5], [1], [1], [0], [0]], [], [0, 0, 0, 0, 0], [[0], [0], [0], [0], [0]], []⟩ : KState).kernels) []) [0] := by
  have h := assignment_step_spec (fun x => x) [0] 5
    ⟨[], [[5], [1], [1], [0], [0]], [], [0, 0, 0, 0, 0], [[0], [0], [0], [0], [0]], []⟩ 0
    (by decide) (by decide) (by decide) (by decide)
  exact ⟨h.1, h.2.1, h.2.2.2.2.1, h.2.2.2.2.2.2.1, h.2.2.2.2.2.2.2.2.1⟩

theorem updateKernel_zero (kern sv : List ℚ) (hlen : kern.length ≤ sv.length) :
    updateKernel 0 sv kern = kern := by
  rw [updateKernel]
  have hfun : (fun p : ℚ × ℚ => if (0 : ℕ) = 0 then p.1 else p.2 / ((0 : ℕ) : ℚ))
      = Prod.fst := by
    funext p
    rw [if_pos rfl]
  rw [hfun]
  exact List.map_fst_zip kern sv hlen

theorem updateKernel_pos_getD (c : ℕ) (hc : 0 < c) :
    ∀ (kern sv : List ℚ) (vi : ℕ), vi < kern.length → vi < sv.length →
      (updateKernel c sv kern).getD vi 0 = sv.getD vi 0 / (c : ℚ)
  | [], _, vi, h, _ => absurd h (by simp)
  | a :: kern, [], vi, _, h => absurd h (by simp)
  | a :: kern, b :: sv, 0, _, _ => by
    simp only [updateKernel, List.zip_cons_cons, List.map_cons, List.getD_cons_zero]
    rw [if_neg (by omega)]
  | a :: kern, b :: sv, vi + 1, h1, h2 => by
    have ih := updateKernel_pos_getD c hc kern sv vi (by simpa using h1) (by simpa using h2)
    simp only [updateKernel, List.zip_cons_cons, List.map_cons, List.getD_cons_succ] at ih ⊢
    exact ih

/-- C4: in the Update step, a kernel whose follower count is zero is left
exactly equal to its previous value (in exact arithmetic: not zeroed, not
a non-number), while a kernel with `c > 0` followers has every one of its
`m` coordinates replaced by accumulated sum / `c`. -/
theorem update_step_spec (ks : List (List ℚ)) (cs : List ℕ) (ss : List (List ℚ))
    (k m ki : ℕ) (hks : ks.length = k) (hcs : cs.length = k) (hss : ss.length = k)
    (hki : ki < k) (hkern : (ks.getD ki []).length = m)
    (hsum : (ss.getD ki []).length = m) :
    (cs.getD ki 0 = 0 → (updateStep ks cs ss).getD ki [] = ks.getD ki []) ∧
    (0 < cs.getD ki 0 → ∀ vi, vi < m →
      ((updateStep ks cs ss).getD ki []).getD vi 0
        = (ss.getD ki []).getD vi 0 / (cs.getD ki 0 : ℚ)) := by
  have hstep := updateStep_getD ks cs ss ki (by omega) (by omega) (by omega)
  constructor
  · intro hc0
    rw [hstep, hc0]
    exact updateKernel_zero _ _ (by omega)
  · intro hcpos vi hvi
    rw [hstep]
    exact updateKernel_pos_getD _ hcpos _ _ vi (by omega) (by omega)

/-- C4 witness: kernel 1 of two has two followers, so its single
coordinate becomes accumulated sum / count. -/
theorem update_step_spec_witness :
    ((updateStep [[1], [2]] [0, 2] [[9], [8]]).getD 1 []).getD 0 0
      = (([[9], [8]] : List (List ℚ)).getD 1 []).getD 0 0 / ((([0, 2] : List ℕ).getD 1 0 : ℕ) : ℚ) :=
  (update_step_spec [[1], [2]] [0, 2] [[9], [8]] 2 1 1 (by decide) (by decide) (by decide)
    (by decide) (by decide) (by decide)).2 (by decide) 0 (by decide)

/-- C6: one iteration never aborts in exact arithmetic (its per-step
`movement != movement` guard can only fire on a non-number), and the
movement it reports is exactly the sum over all kernels `i` of the
computed distance between `prev_means[i]` (the snapshot of the kernels
taken at the start of the iteration) and the updated `kernels[i]`; the
movement is non-negative whenever `sqrt` maps non-negatives to
non-negatives. -/
theorem movement_spec (sqrt : ℚ → ℚ) (k m : ℕ) (s : KState)
    (hker : s.kernels.length = k) (hsq : ∀ x, 0 ≤ x → 0 ≤ sqrt x) :
    kMeansIter sqrt k m s = .ok (kMeansIterP sqrt k m s) ∧
    (kMeansIterP sqrt k m s).1.prev_means = s.kernels ∧
    (kMeansIterP sqrt k m s).2 = movementSum sqrt (kMeansIterP sqrt k m s).1.prev_means
      (kMeansIterP sqrt k m s).1.kernels ∧
    (kMeansIterP sqrt k m s).2 = ∑ i ∈ Finset.range k,
      sqrt (sumSq ((kMeansIterP sqrt k m s).1.prev_means.getD i [])
        ((kMeansIterP sqrt k m s).1.kernels.getD i [])) ∧
    0 ≤ (kMeansIterP sqrt k m s).2 := by
  refine ⟨kMeansIter_eq sqrt k m s,
    kMeansIterP_prev_means sqrt k m s, rfl, ?_, ?_⟩
  · have h1 : (kMeansIterP sqrt k m s).1.prev_means.length = k := by
      rw [kMeansIterP_prev_means]; exact hker
    have h2 : (kMeansIterP sqrt k m s).1.kernels.length = k := by
      rw [kMeansIterP_kernels_length]; exact hker
    calc (kMeansIterP sqrt k m s).2
        = movementSum sqrt (kMeansIterP sqrt k m s).1.prev_means
            (kMeansIterP sqrt k m s).1.kernels := rfl
      _ = ∑ i ∈ Finset.range k,
            sqrt (sumSq ((kMeansIterP sqrt k m s).1.prev_means.getD i [])
              ((kMeansIterP sqrt k m s).1.kernels.getD i [])) :=
          movementSum_eq_sum sqrt k _ _ h1 h2
  · calc (0 : ℚ)
        ≤ movementSum sqrt (kMeansIterP sqrt k m s).1.prev_means
            (kMeansIterP sqrt k m s).1.kernels :=
          movementSum_nonneg sqrt _ _ hsq
      _ = (kMeansIterP sqrt k m s).2 := rfl

/-- C6 witness: one iteration on a single row and single kernel. -/
theorem movement_spec_witness :
    kMeansIter (fun x => x) 1 1 (⟨[[0]], [[0]], [0], [0], [[0]], [[0]]⟩ : KState)
      = .ok (kMeansIterP (fun x => x) 1 1 (⟨[[0]], [[0]], [0], [0], [[0]], [[0]]⟩ : KState)) ∧
    (kMeansIterP (fun x => x) 1 1 (⟨[[0]], [[0]], [0], [0], [[0]], [[0]]⟩ : KState)).1.prev_means = (⟨[[0]], [[0]], [0], [0], [[0]], [[0]]⟩ : KState).kernels ∧
    (kMeansIterP (fun x => x) 1 1 (⟨[[0]], [[0]], [0], [0], [[0]], [[0]]⟩ : KState)).2
      = movementSum (fun x => x) (kMeansIterP (fun x => x) 1 1 (⟨[[0]], [[0]], [0], [0], [[0]], [[0]]⟩ : KState)).1.prev_means (kMeansIterP (fun x => x) 1 1 (⟨[[0]], [[0]], [0], [0], [[0]], [[0]]⟩ : KState)).1.kernels ∧
    (kMeansIterP (fun x => x) 1 1 (⟨[[0]], [[0]], [0], [0], [[0]], [[0]]⟩ : KState)).2
      = ∑ i ∈ Finset.range 1,
        (fun x : ℚ => x) (sumSq ((kMeansIterP (fun x => x) 1 1 (⟨[[0]], [[0]], [0], [0], [[0]], [[0]]⟩ : KState)).1.prev_means.getD i []) ((kMeansIterP (fun x => x) 1 1 (⟨[[0]], [[0]], [0], [0], [[0]], [[0]]⟩ : KState)).1.kernels.getD i [])) ∧
    0 ≤ (kMeansIterP (fun x => x) 1 1 (⟨[[0]], [[0]], [0], [0], [[0]], [[0]]⟩ : KState)).2 :=
  movement_spec (fun x => x) 1 1 ⟨[[0]], [[0]], [0], [0], [[0]], [[0]]⟩
    (by decide) (fun x hx => hx)

/-- C7 (code bug): `rand()` ranges over `[0, RAND_MAX]` inclusive, so the
draw `rand() = RAND_MAX` makes `r = 1.0` and `row = (size_t)(r * n) = n`:
the computed row index is not in the claimed half-open range `[0, n)`
(here `RAND_MAX = 32767`, `n = 5`, draw `32767` gives row `5`), and
`pick_random_kernels` then reads `data_rows[n]`, one past the end of the
dataset — in the model the out-of-bounds read surfaces as the `getD`
default, producing a kernel value `0` that is not copied from any of the
five data rows. -/
theorem pick_random_row_out_of_bounds :
    rowOfDraw 32767 5 32767 = 5 ∧ ¬ rowOfDraw 32767 5 32767 < 5 ∧
    pick_random_kernels 32767 [32767] [[1], [2], [3], [4], [5]] 5 1 1 = some [[0]] := by
  refine ⟨?_, ?_, ?_⟩ <;> with_unfolding_all decide

/-- C8: percentile sampling: kernel `j`'s dimension-`i` component equals
the dimension-`i` value of the row at pivot index `⌊(2·j)/(2·k) · n⌋`
(which is always `< n`) of the dataset copy sorted by that dimension's
values — equivalently, the pivot-th order statistic of dimension `i` over
the dataset.  Each dimension is sorted independently on the same private
copy, so the `m` components of one centroid may come from different
source rows. -/
theorem generate_mean_kernels_spec
    (data_rows : List (List ℚ)) (n m k j i : ℕ)
    (hn : data_rows.length = n) (hn1 : 1 ≤ n) (hj : j < k) (hi : i < m) :
    pivotIdx k n j < n ∧
    ((generate_mean_kernels data_rows n m k).getD j []).getD i 0
      = ((data_rows.map (dimVal i)).mergeSort (fun a b => decide (a ≤ b))).getD
          (pivotIdx k n j) 0 := by
  have hpiv := pivotIdx_lt k n j hj hn1
  refine ⟨hpiv, ?_⟩
  rw [generate_mean_kernels]
  rw [getD_map_of_lt _ [] 0 (List.range k) j (by simpa using hj), getD_range k j hj]
  rw [getD_map_of_lt _ 0 0 (List.range m) i (by simpa using hi), getD_range m i hi]
  have hlen1 : (copyAfter data_rows (i + 1)).length = n := by
    rw [(copyAfter_perm data_rows (i + 1)).length_eq, hn]
  rw [← getD_map_of_lt (dimVal i) 0 [] (copyAfter data_rows (i + 1)) (pivotIdx k n j)
    (by omega)]
  rw [show copyAfter data_rows (i + 1) = sortByDim i (copyAfter data_rows i) from rfl]
  rw [sortByDim_map_dimVal]
  rw [mergeSort_rat_congr_perm _ _ ((copyAfter_perm data_rows i).map (dimVal i))]

/-- C8 witness: the second centroid of a 3-row, 2-column dataset with
`k = 2`: its dimension-0 value is the order statistic at pivot 1. -/
theorem generate_mean_kernels_spec_witness :
    pivotIdx 2 3 1 < 3 ∧
    ((generate_mean_kernels [[3, 0], [1, 5], [2, 1]] 3 2 2).getD 1 []).getD 0 0
      = ((([[3, 0], [1, 5], [2, 1]] : List (List ℚ)).map (dimVal 0)).mergeSort
          (fun a b => decide (a ≤ b))).getD (pivotIdx 2 3 1) 0 :=
  generate_mean_kernels_spec [[3, 0], [1, 5], [2, 1]] 3 2 2 1 0
    (by decide) (by decide) (by decide) (by decide)

theorem kMeansGo_full_run (sqrt : ℚ → ℚ) (eps : ℚ) (k m : ℕ) (fuel : ℕ)
    (s : KState) (it : ℕ) (s' : KState) (iters : ℕ)
    (hrun : kMeansGo sqrt eps k m (fuel + 1) s none it = .ok (s', iters))
    (hlen : s.kernel_followers.length = s.data_rows.length) :
    it + 1 ≤ iters ∧
    s'.kernel_followers = s'.data_rows.map (fun row => nearestIdx sqrt row s'.prev_means) := by
  rw [kMeansGo, if_pos (show movementGE none eps = true from rfl), kMeansIter_eq] at hrun
  rcases hKI : kMeansIterP sqrt k m s with ⟨s1, mv1⟩
  rw [hKI] at hrun
  have hbound := kMeansGo_bound sqrt eps k m fuel s1 (some mv1) (it + 1) s' iters hrun
  have hfol := kMeansIterP_followers sqrt k m s hlen
  have hdr := kMeansIterP_data_rows sqrt k m s
  have hpm := kMeansIterP_prev_means sqrt k m s
  have hfl := kMeansIterP_followers_length sqrt k m s
  rw [hKI] at hfol hdr hpm hfl
  have hR1 : s1.kernel_followers
      = s1.data_rows.map (fun row => nearestIdx sqrt row s1.prev_means) := by
    rw [hfol, hdr, hpm]
  have hlen1 : s1.kernel_followers.length = s1.data_rows.length := by
    rw [hfl, hdr, hlen]
  have hkeep := kMeansGo_preserves_assigned sqrt eps k m fuel s1 (some mv1) (it + 1)
    s' iters hrun hlen1 hR1
  exact ⟨by omega, hkeep⟩

/-- C10: `movement` is initialized to `INFINITY`, which satisfies the loop
condition, so for every input with `n ≥ 1`, `k ≥ 1` the engine performs at
least one full assign-and-update iteration (`1 ≤ iters`); consequently the
returned assignment array is exactly the nearest-kernel assignment of all
`n` rows computed in the final iteration (against the kernels snapshotted
in `prev_means`), every entry having been written during the run. -/
theorem k_means_runs_at_least_once
    (sqrt : ℚ → ℚ) (eps : ℚ) (rmax : ℕ) (draws : List ℕ) (k : ℕ)
    (data_rows : List (List ℚ)) (n m : ℕ) (gen : Bool)
    (s' : KState) (iters : ℕ) (hk : 1 ≤ k) (hn1 : 1 ≤ n)
    (hrows : data_rows.length = n)
    (hrun : k_means sqrt eps rmax draws k data_rows n m gen = some (.ok (s', iters))) :
    1 ≤ iters ∧
    s'.kernel_followers = data_rows.map (fun row => nearestIdx sqrt row s'.prev_means) := by
  rcases hko : (if gen = true then some (generate_mean_kernels data_rows n m k)
      else pick_random_kernels rmax draws data_rows n m k) with _ | kernels
  · rw [k_means_none sqrt eps rmax draws k data_rows n m gen hko] at hrun
    cases hrun
  · rw [k_means_eq sqrt eps rmax draws k data_rows n m gen kernels hko] at hrun
    injection hrun with hrun
    rw [show (2500 : ℕ) = 2499 + 1 from rfl] at hrun
    have hdr' := kMeansGo_data_rows sqrt eps k m (2499 + 1) _ none 0 s' iters hrun
    have hmain := kMeansGo_full_run sqrt eps k m 2499 _ 0 s' iters hrun
      (by simp [hrows])
    refine ⟨by omega, ?_⟩
    rw [hmain.2, hdr']

/-- C10 witness: a one-row run performs exactly one iteration and returns
the nearest-kernel assignment of that row. -/
theorem k_means_runs_at_least_once_witness :
    1 ≤ 1 ∧
    (⟨[[0]], [[0]], [0], [1], [[0]], [[0]]⟩ : KState).kernel_followers
      = [[0]].map (fun row => nearestIdx (fun x => x) row
          (⟨[[0]], [[0]], [0], [1], [[0]], [[0]]⟩ : KState).prev_means) :=
  k_means_runs_at_least_once (fun x => x) 1 1 [] 1 [[0]] 1 1 true _ 1
    (by decide) (by decide) (by with_unfolding_all decide) (by with_unfolding_all rfl)
example : distf64v (fun x => x) [1, 2] [3, 4] = .ok 8 := by with_unfolding_all rfl
example : nearestIdx (fun x => x) [0] [[5], [1], [1], [0], [0]] = 3 := by with_unfolding_all decide
example : pivotIdx 2 10 1 = 5 := by with_unfolding_all decide
example : rowOfDraw 7 5 7 = 5 := by with_unfolding_all decide
example :
    generate_mean_kernels [[3, 0], [1, 5], [2, 1]] 3 2 2 = [[1, 0], [2, 1]] := by with_unfolding_all decide
